import Mathlib

/-!
Verification of the data-cleaning routines of the swmfpy repository.

The main object is `clean` from `omni2swmf.py`: a single left-to-right scan
over a numeric column that replaces runs of sentinel "bad data" values with
linear interpolation between the neighbouring samples.  The scan mutates the
numpy array it is given (slice assignment) and returns that same array.

We model the column as a `List ℚ` (the Python floats are modelled exactly by
rationals; every operation `clean` performs — comparison with the literal
sentinels and `np.linspace` — is arithmetic on those values).  A read
`data[loc]` is modelled by `List.getD loc 0`; all reads in `clean` are in
bounds once the initial reads `data[0]`/`data[1]` succeed, which requires at
least two samples; shorter inputs raise an uncaught `IndexError`, modelled by
the `indexError` result.
-/

namespace Omni2swmf

/-- The sentinel test of `clean`
(`data[loc] == 9999.99 or data[loc] == 99999.9 or data[loc] == 9999999. or data[loc] == 999.99`). -/
def isBad (x : ℚ) : Bool :=
  decide (x = 9999.99 ∨ x = 99999.9 ∨ x = 9999999 ∨ x = 999.99)

/-- `np.linspace start stop num`: `num` evenly spaced samples from `start` to
`stop`, both endpoints included: element `i` is `start + i*(stop-start)/(num-1)`. -/
def linspace (start stop : ℚ) (num : Nat) : List ℚ :=
  (List.range num).map (fun i : Nat => start + (i : ℚ) * (stop - start) / ((num : ℚ) - 1))

/-- Slice assignment `data[s : s + repl.length] = repl`. -/
def setSlice (data : List ℚ) (s : Nat) (repl : List ℚ) : List ℚ :=
  data.take s ++ repl ++ data.drop (s + repl.length)

/-- The loop state of `clean`: the (mutated) array plus the scan variables.
`nextdata`/`nextlocation` are written and read only inside a single branch,
so they are modelled as locals of that branch. -/
structure CleanState where
  data : List ℚ
  prevdata : ℚ
  prevlocation : Nat
  baddata : Bool
deriving Repr

/-- The interpolation step shared by the run-exit branch and the trailing
branch of `clean`:
`length = nextlocation-prevlocation; replacedata = np.linspace(prevdata, nextdata, length+1);`
`data[prevlocation:nextlocation+1] = replacedata`, with `baddata = False`. -/
def fill (st : CleanState) (nextlocation : Nat) (nextdata : ℚ) : CleanState :=
  let length := nextlocation - st.prevlocation
  let replacedata := linspace st.prevdata nextdata (length + 1)
  { st with data := setSlice st.data st.prevlocation replacedata, baddata := false }

/-- One iteration of the `for loc in range(1, np.size(data))` loop of `clean`
(`n` is `np.size(data)`). -/
def step (n : Nat) (st : CleanState) (loc : Nat) : CleanState :=
  let x := st.data.getD loc 0
  let st1 :=
    if isBad x = true ∧ st.baddata = false then
      { st with prevlocation := loc - 1, prevdata := st.data.getD (loc - 1) 0,
                baddata := true }
    else if isBad x = false ∧ st.baddata = true then
      fill st loc x
    else st
  if loc = n - 1 ∧ st1.baddata = true then
    fill st1 loc st1.prevdata
  else st1

/-- Run the loop body for `loc = s, s+1, ..., s+k-1`. -/
def runSteps (n : Nat) (st : CleanState) (s k : Nat) : CleanState :=
  match k with
  | 0 => st
  | k + 1 => runSteps n (step n st s) (s + 1) k

/-- The whole loop of `clean`, started from
`prevdata = data[0]; prevlocation = 0; baddata = False` on `loc = 1 .. n-1`. -/
def cleanLoop (data : List ℚ) : CleanState :=
  runSteps data.length ⟨data, data.getD 0 0, 0, false⟩ 1 (data.length - 1)

/-- The contents of the array after `clean` ran its loop.  Because the loop
mutates `data` in place (numpy slice assignment), this is at once the return
value of `clean` and the contents of the caller's buffer after the call. -/
def cleanList (data : List ℚ) : List ℚ :=
  (cleanLoop data).data

/-- Result of running the Python function: either the returned array, or an
uncaught `IndexError` (from `data[0]` / `data[1]` on inputs shorter than 2). -/
inductive CleanResult where
  | ok : List ℚ → CleanResult
  | indexError : CleanResult
deriving Repr, DecidableEq

/-- `clean(data)`: reads `data[0]` and `data[1]` (an `IndexError` for fewer
than two samples), then scans and repairs in place, returning the same array. -/
def clean (data : List ℚ) : CleanResult :=
  if 2 ≤ data.length then .ok (cleanList data) else .indexError

/-- Hypotheses under which no sentinel can survive the scan: the first sample
is valid, and every valid sample is small compared to all sentinel magnitudes. -/
def smallInput (data : List ℚ) : Prop :=
  isBad (data.getD 0 0) = false ∧
  ∀ i, i < data.length → isBad (data.getD i 0) = false → |data.getD i 0| < 999.99

/-- Invariant of the scan at the moment iteration `loc` is about to run (for
`loc = data.length`: after the loop finished), relating the loop state to the
original array `data`.  In particular: the array keeps its length, its head,
all originally-valid positions, and everything at `loc` and beyond; while
inside a bad run, `prevdata`/`prevlocation` record an earlier position whose
current and original value they equal, with only sentinels strictly between
`prevlocation` and `loc`. -/
structure Inv (data : List ℚ) (loc : Nat) (st : CleanState) : Prop where
  lenEq : st.data.length = data.length
  headEq : st.data.getD 0 0 = data.getD 0 0
  suffixEq : ∀ i, loc ≤ i → st.data.getD i 0 = data.getD i 0
  goodEq : ∀ i, isBad (data.getD i 0) = false → st.data.getD i 0 = data.getD i 0
  runInv : st.baddata = true →
      st.prevlocation + 2 ≤ loc ∧
      st.prevdata = st.data.getD st.prevlocation 0 ∧
      st.prevdata = data.getD st.prevlocation 0 ∧
      ∀ j, st.prevlocation < j → j < loc → isBad (data.getD j 0) = true
  prevGood : st.baddata = false → 2 ≤ loc → loc ≤ data.length - 1 →
      isBad (data.getD (loc - 1) 0) = false
  finBad : loc = data.length → st.baddata = false
  smallInv : smallInput data →
      (st.baddata = false → ∀ i, i < loc → |st.data.getD i 0| < 999.99) ∧
      (st.baddata = true → ∀ i, i ≤ st.prevlocation → |st.data.getD i 0| < 999.99)

end Omni2swmf

/-!
The second cleaning path of the repository: `read_omni_csv` and
`coarse_filtering` (present identically in `swmfpy/io.py`, where the latter is
spelled with a leading underscore, and in `swmfpy.py`).  `read_omni_csv`
masks each physical column by a per-field magnitude test; `coarse_filtering`
masks each column by a whole-column statistical threshold.  A masked-out
sample becomes missing (NaN), modelled as `none`.
-/

namespace SwmfpyIo

/-- `data[column].mean()`: the arithmetic mean of a column. -/
noncomputable def colMean (l : List ℝ) : ℝ := l.sum / l.length

/-- `data[column].std()`: the pandas sample standard deviation (`ddof = 1`),
`sqrt(sum((x - mean)^2) / (n - 1))`. -/
noncomputable def colStd (l : List ℝ) : ℝ :=
  Real.sqrt ((l.map (fun x => (x - colMean l) ^ 2)).sum / (l.length - 1))

/-- One column of `_coarse_filtering`/`coarse_filtering`:
`mean = data[column].abs().mean(); sigma = data[column].std();`
`data[column] = data[data[column].abs() < mean+coarseness*sigma][column]`.
Samples passing the strict `<` test against the whole-column threshold are
kept; all others become missing. -/
noncomputable def coarse_filtering (coarseness : ℝ) (column : List ℝ) : List (Option ℝ) :=
  column.map (fun x =>
    if |x| < colMean (column.map (fun y => |y|)) + coarseness * colStd column then some x
    else none)

/-- The physical columns masked by the `clean` block of `read_omni_csv`. -/
inductive OmniField where
  | Bx | By | Bz | Vx | Vy | Vz | Rho | Temp
deriving DecidableEq

/-- The per-field validity test of the `clean` block of `read_omni_csv`
(in source order: By, Bx, Bz, Rho, Vx, Vz, Vy, T); a sample failing its test
is dropped from the column, i.e. becomes missing. -/
def read_omni_csv_keep : OmniField → ℚ → Bool
  | .By, x => decide (|x| < 80)
  | .Bx, x => decide (|x| < 80)
  | .Bz, x => decide (|x| < 80)
  | .Rho, x => decide (x < 500)
  | .Vx, x => decide (|x| < 2000)
  | .Vz, x => decide (|x| < 1000)
  | .Vy, x => decide (|x| < 1000)
  | .Temp, x => decide (x < 1e7)

/-- The classification asserted by the claim (written from the spec's words,
for comparison): strict tests `|B| < 80` for each magnetic-field component,
`density < 500`, `|V| < 2000` for each velocity component, `T < 1e7`. -/
def read_omni_csv_keep_claimed : OmniField → ℚ → Bool
  | .By, x => decide (|x| < 80)
  | .Bx, x => decide (|x| < 80)
  | .Bz, x => decide (|x| < 80)
  | .Rho, x => decide (x < 500)
  | .Vx, x => decide (|x| < 2000)
  | .Vz, x => decide (|x| < 2000)
  | .Vy, x => decide (|x| < 2000)
  | .Temp, x => decide (x < 1e7)

/-- The amended classification (written from the amended claim's words): as
claimed, except that the `Vy` and `Vz` bounds are 1000 km/s, not 2000. -/
def read_omni_csv_keep_amended : OmniField → ℚ → Bool
  | .By, x => decide (|x| < 80)
  | .Bx, x => decide (|x| < 80)
  | .Bz, x => decide (|x| < 80)
  | .Rho, x => decide (x < 500)
  | .Vx, x => decide (|x| < 2000)
  | .Vz, x => decide (|x| < 1000)
  | .Vy, x => decide (|x| < 1000)
  | .Temp, x => decide (x < 1e7)

end SwmfpyIo

namespace Omni2swmf

/-! ### Basic lemmas about the embedded operations -/

theorem isBad_eq_false_iff {x : ℚ} :
    isBad x = false ↔ x ≠ 9999.99 ∧ x ≠ 99999.9 ∧ x ≠ 9999999 ∧ x ≠ 999.99 := by
  simp [isBad, not_or]

theorem isBad_eq_false_of_abs_lt {x : ℚ} (h : |x| < 999.99) : isBad x = false := by
  rw [abs_lt] at h
  rw [isBad_eq_false_iff]
  refine ⟨?_, ?_, ?_, ?_⟩ <;> rintro rfl <;> norm_num at h

theorem setSlice_length {l r : List ℚ} {s : Nat} (hs : s ≤ l.length)
    (hr : s + r.length ≤ l.length) : (setSlice l s r).length = l.length := by
  simp only [setSlice, List.length_append, List.length_take, List.length_drop]
  omega

theorem setSlice_getD_of_lt {l r : List ℚ} {s i : Nat} (hs : s ≤ l.length) (h : i < s)
    (d : ℚ) : (setSlice l s r).getD i d = l.getD i d := by
  have hl : i < (l.take s).length := by
    simp only [List.length_take]
    omega
  simp only [setSlice, List.append_assoc, List.getD_eq_getElem?_getD]
  rw [List.getElem?_append, if_pos hl, List.getElem?_take, if_pos h]

theorem setSlice_getD_mid {l r : List ℚ} {s i : Nat} (hs : s ≤ l.length) (h : i < r.length)
    (d : ℚ) : (setSlice l s r).getD (s + i) d = r.getD i d := by
  have hlt : (l.take s).length = s := by
    simp only [List.length_take]
    omega
  simp only [setSlice, List.append_assoc, List.getD_eq_getElem?_getD]
  rw [List.getElem?_append_right (by rw [hlt]; omega), hlt, Nat.add_sub_cancel_left,
    List.getElem?_append, if_pos h]

theorem setSlice_getD_of_ge {l r : List ℚ} {s i : Nat} (hs : s ≤ l.length)
    (h : s + r.length ≤ i) (d : ℚ) : (setSlice l s r).getD i d = l.getD i d := by
  have hlt : (l.take s).length = s := by
    simp only [List.length_take]
    omega
  simp only [setSlice, List.append_assoc, List.getD_eq_getElem?_getD]
  rw [List.getElem?_append_right (show (l.take s).length ≤ i by rw [hlt]; omega)]
  rw [hlt]
  rw [List.getElem?_append_right (show r.length ≤ i - s by omega)]
  rw [List.getElem?_drop]
  rw [show s + r.length + (i - s - r.length) = i by omega]

theorem linspace_length {a b : ℚ} {m : Nat} : (linspace a b m).length = m := by
  simp only [linspace, List.length_map, List.length_range]

theorem linspace_getD {a b : ℚ} {m i : Nat} (h : i < m) (d : ℚ) :
    (linspace a b m).getD i d = a + (i : ℚ) * (b - a) / ((m : ℚ) - 1) := by
  have hl : i < (linspace a b m).length := by rwa [linspace_length]
  rw [List.getD_eq_getElem _ _ hl]
  simp only [linspace, List.getElem_map, List.getElem_range]

/-- Convex-combination bound: every value `a + k*(b-a)/m` with `0 ≤ k ≤ m`
lies strictly within `(-c, c)` when both `a` and `b` do. -/
theorem abs_interp_lt {a b c : ℚ} (ha : |a| < c) (hb : |b| < c) {k m : Nat} (hkm : k ≤ m) :
    |a + (k : ℚ) * (b - a) / ((m : Nat) : ℚ)| < c := by
  rcases Nat.eq_zero_or_pos m with hm | hm
  · have hk : k = 0 := by omega
    subst hm hk
    simpa using ha
  · have hm0 : (0 : ℚ) < (m : ℚ) := by exact_mod_cast hm
    have hk : (k : ℚ) ≤ (m : ℚ) := by exact_mod_cast hkm
    have hk0 : (0 : ℚ) ≤ (k : ℚ) := Nat.cast_nonneg k
    have h1 : (k : ℚ) * (b - a) / (m : ℚ) = ((k : ℚ) / (m : ℚ)) * (b - a) := by ring
    set t : ℚ := (k : ℚ) / (m : ℚ) with ht
    have ht0 : 0 ≤ t := div_nonneg hk0 hm0.le
    have ht1 : t ≤ 1 := (div_le_one hm0).2 hk
    rw [h1, abs_lt]
    rw [abs_lt] at ha hb
    constructor
    · rcases lt_or_le t 1 with h | h
      · have h2 : 0 < (1 - t) * (a + c) := mul_pos (by linarith) (by linarith)
        have h3 : 0 ≤ t * (b + c) := mul_nonneg ht0 (by linarith)
        nlinarith
      · have h4 : t = 1 := le_antisymm ht1 h
        rw [h4]
        linarith
    · rcases lt_or_le t 1 with h | h
      · have h2 : 0 < (1 - t) * (c - a) := mul_pos (by linarith) (by linarith)
        have h3 : 0 ≤ t * (c - b) := mul_nonneg ht0 (by linarith)
        nlinarith
      · have h4 : t = 1 := le_antisymm ht1 h
        rw [h4]
        linarith

/-! ### Lemmas about `fill` -/

theorem fill_def (st : CleanState) (loc : Nat) (v : ℚ) :
    fill st loc v =
      { st with
        data := setSlice st.data st.prevlocation
          (linspace st.prevdata v (loc - st.prevlocation + 1)),
        baddata := false } := rfl

variable {st : CleanState} {loc : Nat} {v : ℚ}

theorem fill_data_length (hp : st.prevlocation ≤ loc) (hlen : loc < st.data.length) :
    (fill st loc v).data.length = st.data.length := by
  rw [fill_def]
  exact setSlice_length (by omega) (by rw [linspace_length]; omega)

theorem fill_getD_of_lt (hp : st.prevlocation ≤ loc) (hlen : loc < st.data.length) {i : Nat}
    (h : i < st.prevlocation) :
    (fill st loc v).data.getD i 0 = st.data.getD i 0 := by
  rw [fill_def]
  exact setSlice_getD_of_lt (by omega) h 0

theorem fill_getD_of_gt (hp : st.prevlocation ≤ loc) (hlen : loc < st.data.length) {i : Nat}
    (h : loc < i) : (fill st loc v).data.getD i 0 = st.data.getD i 0 := by
  rw [fill_def]
  exact setSlice_getD_of_ge (by omega) (by rw [linspace_length]; omega) 0

theorem fill_getD_mem (hp : st.prevlocation ≤ loc) (hlen : loc < st.data.length) {i : Nat}
    (h1 : st.prevlocation ≤ i) (h2 : i ≤ loc) :
    (fill st loc v).data.getD i 0
      = st.prevdata + ((i - st.prevlocation : Nat) : ℚ) * (v - st.prevdata)
          / ((loc - st.prevlocation : Nat) : ℚ) := by
  obtain ⟨k, rfl⟩ : ∃ k, i = st.prevlocation + k := ⟨i - st.prevlocation, by omega⟩
  rw [fill_def]
  have hk : k < (linspace st.prevdata v (loc - st.prevlocation + 1)).length := by
    rw [linspace_length]; omega
  rw [setSlice_getD_mid (by omega) (by rw [linspace_length]; omega) 0,
    linspace_getD (by omega) 0]
  have hcast : (((loc - st.prevlocation + 1 : Nat)) : ℚ) - 1 = ((loc - st.prevlocation : Nat) : ℚ) := by
    push_cast
    ring
  rw [hcast, Nat.add_sub_cancel_left]

theorem fill_getD_self (hp : st.prevlocation ≤ loc) (hlen : loc < st.data.length) :
    (fill st loc v).data.getD st.prevlocation 0 = st.prevdata := by
  rw [fill_getD_mem hp hlen le_rfl hp]
  simp

theorem fill_getD_last (hp : st.prevlocation < loc) (hlen : loc < st.data.length) :
    (fill st loc v).data.getD loc 0 = v := by
  rw [fill_getD_mem hp.le hlen hp.le le_rfl]
  have h0 : ((loc - st.prevlocation : Nat) : ℚ) ≠ 0 := by
    rw [Nat.cast_ne_zero]
    omega
  field_simp

theorem fill_getD_const (hp : st.prevlocation ≤ loc) (hlen : loc < st.data.length) {i : Nat}
    (h1 : st.prevlocation ≤ i) (h2 : i ≤ loc) :
    (fill st loc st.prevdata).data.getD i 0 = st.prevdata := by
  rw [fill_getD_mem hp hlen h1 h2]
  simp

theorem fill_baddata : (fill st loc v).baddata = false := rfl

/-! The same facts, restated on the raw slice so that they apply to a fill
performed on an updated state record. -/

theorem fillSlice_length {dl : List ℚ} {p lo : Nat} {a v : ℚ} (hp : p ≤ lo)
    (hlen : lo < dl.length) :
    (setSlice dl p (linspace a v (lo - p + 1))).length = dl.length :=
  @fill_data_length ⟨dl, a, p, false⟩ lo v hp hlen

theorem fillSlice_getD_of_lt {dl : List ℚ} {p lo : Nat} {a v : ℚ} (hp : p ≤ lo)
    (hlen : lo < dl.length) {i : Nat} (h : i < p) :
    (setSlice dl p (linspace a v (lo - p + 1))).getD i 0 = dl.getD i 0 :=
  @fill_getD_of_lt ⟨dl, a, p, false⟩ lo v hp hlen i h

theorem fillSlice_getD_of_gt {dl : List ℚ} {p lo : Nat} {a v : ℚ} (hp : p ≤ lo)
    (hlen : lo < dl.length) {i : Nat} (h : lo < i) :
    (setSlice dl p (linspace a v (lo - p + 1))).getD i 0 = dl.getD i 0 :=
  @fill_getD_of_gt ⟨dl, a, p, false⟩ lo v hp hlen i h

theorem fillSlice_getD_mem {dl : List ℚ} {p lo : Nat} {a v : ℚ} (hp : p ≤ lo)
    (hlen : lo < dl.length) {i : Nat} (h1 : p ≤ i) (h2 : i ≤ lo) :
    (setSlice dl p (linspace a v (lo - p + 1))).getD i 0
      = a + ((i - p : Nat) : ℚ) * (v - a) / ((lo - p : Nat) : ℚ) :=
  @fill_getD_mem ⟨dl, a, p, false⟩ lo v hp hlen i h1 h2

theorem fillSlice_getD_self {dl : List ℚ} {p lo : Nat} {a v : ℚ} (hp : p ≤ lo)
    (hlen : lo < dl.length) :
    (setSlice dl p (linspace a v (lo - p + 1))).getD p 0 = a :=
  @fill_getD_self ⟨dl, a, p, false⟩ lo v hp hlen

theorem fillSlice_getD_last {dl : List ℚ} {p lo : Nat} {a v : ℚ} (hp : p < lo)
    (hlen : lo < dl.length) :
    (setSlice dl p (linspace a v (lo - p + 1))).getD lo 0 = v :=
  @fill_getD_last ⟨dl, a, p, false⟩ lo v hp hlen

theorem fillSlice_getD_const {dl : List ℚ} {p lo : Nat} {a : ℚ} (hp : p ≤ lo)
    (hlen : lo < dl.length) {i : Nat} (h1 : p ≤ i) (h2 : i ≤ lo) :
    (setSlice dl p (linspace a a (lo - p + 1))).getD i 0 = a :=
  @fill_getD_const ⟨dl, a, p, false⟩ lo hp hlen i h1 h2

theorem fill_prevdata : (fill st loc v).prevdata = st.prevdata := rfl

theorem fill_prevlocation : (fill st loc v).prevlocation = st.prevlocation := rfl

/-! ### Unfolding lemmas for `step` -/

theorem step_valid_nobad {n : Nat} (hx : isBad (st.data.getD loc 0) = false)
    (hb : st.baddata = false) : step n st loc = st := by
  simp only [step]
  split_ifs <;> simp_all [fill_baddata]

theorem step_bad_nobad_mid {n : Nat} (hx : isBad (st.data.getD loc 0) = true)
    (hb : st.baddata = false) (hl : loc ≠ n - 1) :
    step n st loc =
      { st with prevlocation := loc - 1, prevdata := st.data.getD (loc - 1) 0,
                baddata := true } := by
  simp only [step]
  split_ifs <;> simp_all [fill_baddata]

theorem step_bad_nobad_last {n : Nat} (hx : isBad (st.data.getD loc 0) = true)
    (hb : st.baddata = false) (hl : loc = n - 1) :
    step n st loc =
      fill { st with prevlocation := loc - 1, prevdata := st.data.getD (loc - 1) 0,
                     baddata := true } loc (st.data.getD (loc - 1) 0) := by
  simp only [step]
  split_ifs <;> simp_all [fill_baddata]

theorem step_valid_bad {n : Nat} (hx : isBad (st.data.getD loc 0) = false)
    (hb : st.baddata = true) : step n st loc = fill st loc (st.data.getD loc 0) := by
  simp only [step]
  split_ifs <;> simp_all [fill_baddata]

theorem step_bad_bad_mid {n : Nat} (hx : isBad (st.data.getD loc 0) = true)
    (hb : st.baddata = true) (hl : loc ≠ n - 1) : step n st loc = st := by
  simp only [step]
  split_ifs <;> simp_all [fill_baddata]

theorem step_bad_bad_last {n : Nat} (hx : isBad (st.data.getD loc 0) = true)
    (hb : st.baddata = true) (hl : loc = n - 1) :
    step n st loc = fill st loc st.prevdata := by
  simp only [step]
  split_ifs <;> simp_all [fill_baddata]

/-! ### Lemmas about `runSteps` -/

theorem runSteps_zero {n : Nat} (st : CleanState) (s : Nat) : runSteps n st s 0 = st := rfl

theorem runSteps_succ {n : Nat} (st : CleanState) (s k : Nat) :
    runSteps n st s (k + 1) = runSteps n (step n st s) (s + 1) k := rfl

theorem runSteps_append {n : Nat} (st : CleanState) (s k1 k2 : Nat) :
    runSteps n st s (k1 + k2) = runSteps n (runSteps n st s k1) (s + k1) k2 := by
  induction k1 generalizing st s with
  | zero => simp [runSteps_zero]
  | succ k1 ih =>
    have h1 : k1 + 1 + k2 = (k1 + k2) + 1 := by omega
    rw [h1, runSteps_succ, runSteps_succ, ih]
    have h2 : s + 1 + k1 = s + (k1 + 1) := by omega
    rw [h2]

/-- Generic invariant rule for the scan loop. -/
theorem runSteps_inv {n : Nat} (P : Nat → CleanState → Prop) {s k : Nat} {st : CleanState}
    (hstep : ∀ loc st', s ≤ loc → loc < s + k → P loc st' → P (loc + 1) (step n st' loc))
    (h0 : P s st) : P (s + k) (runSteps n st s k) := by
  induction k generalizing s st with
  | zero => simpa using h0
  | succ k ih =>
    rw [runSteps_succ]
    have h1 : P (s + 1) (step n st s) := hstep s st le_rfl (by omega) h0
    have h2 := ih (fun loc st' hl1 hl2 h => hstep loc st' (by omega) (by omega) h) h1
    rw [show s + (k + 1) = s + 1 + k by omega]
    exact h2

/-! ### The master invariant of the scan loop -/

theorem inv_init (data : List ℚ) (hn : 2 ≤ data.length) :
    Inv data 1 ⟨data, data.getD 0 0, 0, false⟩ := by
  refine ⟨rfl, rfl, fun i _ => rfl, fun i _ => rfl, ?_, ?_, ?_, ?_⟩
  · intro hbt
    simp at hbt
  · intro _ hge _
    omega
  · intro _
    rfl
  · intro hs
    constructor
    · intro _ i hi
      have hi0 : i = 0 := by omega
      subst hi0
      exact hs.2 0 (by omega) hs.1
    · intro hbt
      simp at hbt

theorem inv_step (data : List ℚ) {loc : Nat} {st : CleanState}
    (h1 : 1 ≤ loc) (h2 : loc ≤ data.length - 1) (hn : 2 ≤ data.length)
    (h : Inv data loc st) : Inv data (loc + 1) (step data.length st loc) := by
  have hlocn : loc < data.length := by omega
  have hxeq : st.data.getD loc 0 = data.getD loc 0 := h.suffixEq loc le_rfl
  have hstlen : st.data.length = data.length := h.lenEq
  have hloclen : loc < st.data.length := by omega
  by_cases hb : st.baddata = true
  · obtain ⟨hp2, hpd1, hpd2, hrun⟩ := h.runInv hb
    have hple : st.prevlocation ≤ loc := by omega
    have hplt : st.prevlocation < loc := by omega
    by_cases hx : isBad (st.data.getD loc 0) = true
    · -- sentinel while inside a run
      by_cases hl : loc = data.length - 1
      · -- last iteration: trailing fill with the anchor value
        rw [step_bad_bad_last hx hb hl]
        refine ⟨?_, ?_, ?_, ?_, ?_, ?_, ?_, ?_⟩
        · rw [fill_data_length hple hloclen]
          exact hstlen
        · by_cases h0 : 0 < st.prevlocation
          · rw [fill_getD_of_lt hple hloclen h0]
            exact h.headEq
          · have hp0 : st.prevlocation = 0 := by omega
            have hs0 : (fill st loc st.prevdata).data.getD st.prevlocation 0 = st.prevdata :=
              fill_getD_self hple hloclen
            rw [hp0] at hs0
            rw [hs0, hpd2, hp0]
        · intro i hi
          rw [fill_getD_of_gt hple hloclen (by omega)]
          exact h.suffixEq i (by omega)
        · intro i hgood
          rcases Nat.lt_or_ge i st.prevlocation with hip | hip
          · rw [fill_getD_of_lt hple hloclen hip]
            exact h.goodEq i hgood
          · rcases Nat.lt_or_ge loc i with hli | hli
            · rw [fill_getD_of_gt hple hloclen hli]
              exact h.goodEq i hgood
            · rcases Nat.eq_or_lt_of_le hip with hEq | hlt'
              · rw [← hEq, fill_getD_self hple hloclen, hpd2]
              · rcases Nat.eq_or_lt_of_le hli with hEq2 | hlt2
                · rw [hEq2, ← hxeq, hx] at hgood
                  simp at hgood
                · have := hrun i hlt' hlt2
                  rw [this] at hgood
                  simp at hgood
        · intro hbt
          simp [fill_baddata] at hbt
        · intro _ _ hle
          exact absurd hle (by omega)
        · intro _
          exact fill_baddata
        · intro hs
          have hsm := (h.smallInv hs).2 hb
          constructor
          · intro _ i hi
            rcases Nat.lt_or_ge i st.prevlocation with hip | hip
            · rw [fill_getD_of_lt hple hloclen hip]
              exact hsm i (by omega)
            · have hile : i ≤ loc := by omega
              rw [fill_getD_const hple hloclen hip hile, hpd1]
              exact hsm st.prevlocation le_rfl
          · intro hbt
            simp [fill_baddata] at hbt
      · -- middle of a run: nothing happens
        rw [step_bad_bad_mid hx hb hl]
        refine ⟨h.lenEq, h.headEq, fun i hi => h.suffixEq i (by omega), h.goodEq,
          ?_, ?_, ?_, ?_⟩
        · intro _
          refine ⟨by omega, hpd1, hpd2, ?_⟩
          intro j hj1 hj2
          rcases Nat.lt_or_ge j loc with hj | hj
          · exact hrun j hj1 hj
          · have hjloc : j = loc := by omega
            rw [hjloc, ← hxeq]
            exact hx
        · intro hbf
          exact absurd hbf (by simp [hb])
        · intro hEq
          exact absurd hEq (by omega)
        · intro hs
          refine ⟨?_, ?_⟩
          · intro hbf
            exact absurd hbf (by simp [hb])
          · intro _
            exact (h.smallInv hs).2 hb
    · -- valid sample ends the run: interpolation fill
      have hx' : isBad (st.data.getD loc 0) = false := by simpa using hx
      rw [step_valid_bad hx' hb]
      have hgoodloc : isBad (data.getD loc 0) = false := by rw [← hxeq]; exact hx'
      refine ⟨?_, ?_, ?_, ?_, ?_, ?_, ?_, ?_⟩
      · rw [fill_data_length hple hloclen]
        exact hstlen
      · by_cases h0 : 0 < st.prevlocation
        · rw [fill_getD_of_lt hple hloclen h0]
          exact h.headEq
        · have hp0 : st.prevlocation = 0 := by omega
          have hs0 : (fill st loc (st.data.getD loc 0)).data.getD st.prevlocation 0 = st.prevdata :=
            fill_getD_self hple hloclen
          rw [hp0] at hs0
          rw [hs0, hpd2, hp0]
      · intro i hi
        rw [fill_getD_of_gt hple hloclen (by omega)]
        exact h.suffixEq i (by omega)
      · intro i hgood
        rcases Nat.lt_or_ge i st.prevlocation with hip | hip
        · rw [fill_getD_of_lt hple hloclen hip]
          exact h.goodEq i hgood
        · rcases Nat.lt_or_ge loc i with hli | hli
          · rw [fill_getD_of_gt hple hloclen hli]
            exact h.goodEq i hgood
          · rcases Nat.eq_or_lt_of_le hip with hEq | hlt'
            · rw [← hEq, fill_getD_self hple hloclen, hpd2]
            · rcases Nat.eq_or_lt_of_le hli with hEq2 | hlt2
              · rw [hEq2, fill_getD_last hplt hloclen, hxeq]
              · have := hrun i hlt' hlt2
                rw [this] at hgood
                simp at hgood
      · intro hbt
        simp [fill_baddata] at hbt
      · intro _ _ _
        rw [show loc + 1 - 1 = loc by omega]
        exact hgoodloc
      · intro _
        exact fill_baddata
      · intro hs
        have hsm := (h.smallInv hs).2 hb
        have hxsmall : |st.data.getD loc 0| < 999.99 := by
          rw [hxeq]
          exact hs.2 loc hlocn hgoodloc
        constructor
        · intro _ i hi
          rcases Nat.lt_or_ge i st.prevlocation with hip | hip
          · rw [fill_getD_of_lt hple hloclen hip]
            exact hsm i (by omega)
          · have hile : i ≤ loc := by omega
            rw [fill_getD_mem hple hloclen hip hile]
            have hpsmall : |st.prevdata| < 999.99 := by
              rw [hpd1]
              exact hsm st.prevlocation le_rfl
            exact abs_interp_lt hpsmall hxsmall (by omega)
        · intro hbt
          simp [fill_baddata] at hbt
  · have hbf : st.baddata = false := by simpa using hb
    by_cases hx : isBad (st.data.getD loc 0) = true
    · -- a run starts at `loc`
      have hpd' : st.data.getD (loc - 1) 0 = data.getD (loc - 1) 0 := by
        by_cases hloc1 : loc = 1
        · rw [hloc1]
          exact h.headEq
        · have hvalid := h.prevGood hbf (by omega) h2
          exact h.goodEq _ hvalid
      by_cases hl : loc = data.length - 1
      · -- run starts at the last index: immediate trailing fill
        rw [step_bad_nobad_last hx hbf hl]
        have hple1 : loc - 1 ≤ loc := by omega
        have hdata :
            (fill { st with prevlocation := loc - 1, prevdata := st.data.getD (loc - 1) 0, baddata := true } loc (st.data.getD (loc - 1) 0)).data
            = setSlice st.data (loc - 1) (linspace (st.data.getD (loc - 1) 0) (st.data.getD (loc - 1) 0) (loc - (loc - 1) + 1)) := rfl
        refine ⟨?_, ?_, ?_, ?_, ?_, ?_, ?_, ?_⟩
        · rw [hdata, fillSlice_length hple1 hloclen]
          exact hstlen
        · rw [hdata]
          by_cases h0 : 0 < loc - 1
          · rw [fillSlice_getD_of_lt hple1 hloclen h0]
            exact h.headEq
          · have hp0 : loc - 1 = 0 := by omega
            rw [hp0]
            rw [fillSlice_getD_self (by omega) hloclen]
            exact h.headEq
        · intro i hi
          rw [hdata, fillSlice_getD_of_gt hple1 hloclen (by omega)]
          exact h.suffixEq i (by omega)
        · intro i hgood
          rw [hdata]
          rcases Nat.lt_or_ge i (loc - 1) with hip | hip
          · rw [fillSlice_getD_of_lt hple1 hloclen hip]
            exact h.goodEq i hgood
          · rcases Nat.lt_or_ge loc i with hli | hli
            · rw [fillSlice_getD_of_gt hple1 hloclen hli]
              exact h.goodEq i hgood
            · rcases Nat.eq_or_lt_of_le hip with hEq | hlt'
              · rw [← hEq] at hgood ⊢
                rw [fillSlice_getD_self hple1 hloclen]
                exact hpd'
              · have hiloc : i = loc := by omega
                rw [hiloc, ← hxeq, hx] at hgood
                simp at hgood
        · intro hbt
          simp [fill_baddata] at hbt
        · intro _ _ hle
          exact absurd hle (by omega)
        · intro _
          exact fill_baddata
        · intro hs
          have hsmall := (h.smallInv hs).1 hbf
          have hvsmall : |st.data.getD (loc - 1) 0| < 999.99 := hsmall (loc - 1) (by omega)
          constructor
          · intro _ i hi
            rw [hdata]
            rcases Nat.lt_or_ge i (loc - 1) with hip | hip
            · rw [fillSlice_getD_of_lt hple1 hloclen hip]
              exact hsmall i (by omega)
            · have hile : i ≤ loc := by omega
              rw [fillSlice_getD_const hple1 hloclen hip hile]
              exact hvsmall
          · intro hbt
            simp [fill_baddata] at hbt
      · -- run starts in the middle: only the scan variables change
        rw [step_bad_nobad_mid hx hbf hl]
        refine ⟨hstlen, h.headEq, fun i hi => h.suffixEq i (by omega), h.goodEq,
          ?_, ?_, ?_, ?_⟩
        · intro _
          refine ⟨?_, ?_, ?_, ?_⟩
          · show loc - 1 + 2 ≤ loc + 1
            omega
          · rfl
          · exact hpd'
          · intro j hj1 hj2
            have hjloc : j = loc := by
              have : loc - 1 < j := hj1
              omega
            rw [hjloc, ← hxeq]
            exact hx
        · intro hbf'
          simp at hbf'
        · intro hEq
          exact absurd hEq (by omega)
        · intro hs
          refine ⟨?_, ?_⟩
          · intro hbf'
            simp at hbf'
          · intro _ i hi
            have hi' : i ≤ loc - 1 := hi
            exact (h.smallInv hs).1 hbf i (by omega)
    · -- valid sample outside a run: nothing happens
      have hx' : isBad (st.data.getD loc 0) = false := by simpa using hx
      rw [step_valid_nobad hx' hbf]
      refine ⟨hstlen, h.headEq, fun i hi => h.suffixEq i (by omega), h.goodEq,
        ?_, ?_, ?_, ?_⟩
      · intro hbt
        exact absurd hbt (by simp [hbf])
      · intro _ _ _
        rw [show loc + 1 - 1 = loc by omega, ← hxeq]
        exact hx'
      · intro _
        exact hbf
      · intro hs
        refine ⟨?_, ?_⟩
        · intro _ i hi
          rcases Nat.lt_or_ge i loc with hil | hil
          · exact (h.smallInv hs).1 hbf i hil
          · have hiloc : i = loc := by omega
            rw [hiloc, hxeq]
            exact hs.2 loc hlocn (by rw [← hxeq]; exact hx')
        · intro hbt
          exact absurd hbt (by simp [hbf])

theorem inv_final (data : List ℚ) (hn : 2 ≤ data.length) :
    Inv data data.length (cleanLoop data) := by
  have h := runSteps_inv (n := data.length) (Inv data) (s := 1) (k := data.length - 1)
    (fun loc st' hl1 hl2 hInv => inv_step data hl1 (by omega) hn hInv)
    (inv_init data hn)
  rwa [show 1 + (data.length - 1) = data.length by omega] at h

theorem inv_upto (data : List ℚ) (hn : 2 ≤ data.length) {m : Nat}
    (hm : m ≤ data.length - 1) :
    Inv data (1 + m) (runSteps data.length ⟨data, data.getD 0 0, 0, false⟩ 1 m) :=
  runSteps_inv (Inv data)
    (fun loc st' hl1 hl2 hInv => inv_step data hl1 (by omega) hn hInv)
    (inv_init data hn)

/-- At the boundary right after a valid sample (or right after the initial
position), the scan cannot be inside a bad run. -/
theorem inv_baddata_false (data : List ℚ) {m : Nat} {st : CleanState}
    (hInv : Inv data (1 + m) st)
    (hvalid : m = 0 ∨ isBad (data.getD m 0) = false) : st.baddata = false := by
  by_contra hbt
  have hbt' : st.baddata = true := by simpa using hbt
  obtain ⟨hp2, _, _, hrun⟩ := hInv.runInv hbt'
  rcases Nat.eq_zero_or_pos m with hm0 | hmpos
  · subst hm0
    omega
  · rcases hvalid with hm0 | hval
    · omega
    · have hbad := hrun m (by omega) (by omega)
      rw [hbad] at hval
      simp at hval

/-- While the scan is inside a run of sentinels that does not reach the final
iteration, nothing happens. -/
theorem runSteps_noop {n : Nat} {st : CleanState} {s k : Nat} (hb : st.baddata = true)
    (hsent : ∀ j, s ≤ j → j < s + k → isBad (st.data.getD j 0) = true)
    (hlast : s + k ≤ n - 1) :
    runSteps n st s k = st := by
  induction k generalizing s with
  | zero => rfl
  | succ k ih =>
    rw [runSteps_succ]
    rw [step_bad_bad_mid (hsent s le_rfl (by omega)) hb (by omega)]
    exact ih (fun j hj1 hj2 => hsent j (by omega) (by omega)) (by omega)

/-- Processing iterations `s, ..., s+k-1` from a state that is not inside a
run never changes the array strictly below position `s`: a fill started at
iteration `loc ≥ s` writes positions `loc-1` and above, and the write at the
anchor position `loc-1 = s-1` restores the value already there. -/
theorem runSteps_frame {n : Nat} {st : CleanState} {s k : Nat}
    (hlen : st.data.length = n) (hb : st.baddata = false) (hs : 1 ≤ s) (hk : s + k ≤ n) :
    ∀ i, i < s → (runSteps n st s k).data.getD i 0 = st.data.getD i 0 := by
  have main := @runSteps_inv n
    (fun loc cur =>
      cur.data.length = n ∧
      (∀ i, i < s → cur.data.getD i 0 = st.data.getD i 0) ∧
      (cur.baddata = true → s ≤ cur.prevlocation + 1 ∧ cur.prevlocation < loc ∧
        cur.prevdata = cur.data.getD cur.prevlocation 0))
    s k st ?hstep ?h0
  case h0 => exact ⟨hlen, fun i _ => rfl, fun hbt => absurd hbt (by simp [hb])⟩
  case hstep =>
    intro loc cur hl1 hl2 hP
    obtain ⟨hlenc, hpres, hrunc⟩ := hP
    have hloclen : loc < cur.data.length := by omega
    by_cases hbc : cur.baddata = true
    · obtain ⟨hr1, hr2, hr3⟩ := hrunc hbc
      have hple : cur.prevlocation ≤ loc := by omega
      by_cases hxc : isBad (cur.data.getD loc 0) = true
      · by_cases hlc : loc = n - 1
        · rw [step_bad_bad_last hxc hbc hlc]
          refine ⟨?_, ?_, ?_⟩
          · rw [fill_data_length hple hloclen]
            exact hlenc
          · intro i hi
            rcases Nat.lt_or_ge i cur.prevlocation with hip | hip
            · rw [fill_getD_of_lt hple hloclen hip]
              exact hpres i hi
            · have hieq : i = cur.prevlocation := by omega
              rw [hieq] at hi ⊢
              rw [fill_getD_self hple hloclen, hr3]
              exact hpres _ hi
          · intro hbt
            simp [fill_baddata] at hbt
        · rw [step_bad_bad_mid hxc hbc hlc]
          exact ⟨hlenc, hpres, fun _ => ⟨hr1, by omega, hr3⟩⟩
      · have hxc' : isBad (cur.data.getD loc 0) = false := by simpa using hxc
        rw [step_valid_bad hxc' hbc]
        refine ⟨?_, ?_, ?_⟩
        · rw [fill_data_length hple hloclen]
          exact hlenc
        · intro i hi
          rcases Nat.lt_or_ge i cur.prevlocation with hip | hip
          · rw [fill_getD_of_lt hple hloclen hip]
            exact hpres i hi
          · have hieq : i = cur.prevlocation := by omega
            rw [hieq] at hi ⊢
            rw [fill_getD_self hple hloclen, hr3]
            exact hpres _ hi
        · intro hbt
          simp [fill_baddata] at hbt
    · have hbc' : cur.baddata = false := by simpa using hbc
      by_cases hxc : isBad (cur.data.getD loc 0) = true
      · by_cases hlc : loc = n - 1
        · rw [step_bad_nobad_last hxc hbc' hlc]
          have hple1 : loc - 1 ≤ loc := by omega
          have hdata :
              (fill { cur with prevlocation := loc - 1, prevdata := cur.data.getD (loc - 1) 0, baddata := true } loc (cur.data.getD (loc - 1) 0)).data
              = setSlice cur.data (loc - 1) (linspace (cur.data.getD (loc - 1) 0) (cur.data.getD (loc - 1) 0) (loc - (loc - 1) + 1)) := rfl
          refine ⟨?_, ?_, ?_⟩
          · rw [hdata, fillSlice_length hple1 hloclen]
            exact hlenc
          · intro i hi
            rw [hdata]
            rcases Nat.lt_or_ge i (loc - 1) with hip | hip
            · rw [fillSlice_getD_of_lt hple1 hloclen hip]
              exact hpres i hi
            · have hieq : i = loc - 1 := by omega
              rw [hieq] at hi ⊢
              rw [fillSlice_getD_self hple1 hloclen]
              exact hpres _ hi
          · intro hbt
            simp [fill_baddata] at hbt
        · rw [step_bad_nobad_mid hxc hbc' hlc]
          refine ⟨hlenc, hpres, ?_⟩
          intro _
          refine ⟨?_, ?_, ?_⟩
          · show s ≤ loc - 1 + 1
            omega
          · show loc - 1 < loc + 1
            omega
          · rfl
      · have hxc' : isBad (cur.data.getD loc 0) = false := by simpa using hxc
        rw [step_valid_nobad hxc' hbc']
        exact ⟨hlenc, hpres, fun hbt => absurd hbt (by simp [hbc'])⟩
  exact fun i hi => main.2.1 i hi

/-- Running the remaining iterations `j .. n-1` over a suffix that is entirely
sentinels (with the sample at `j-1` acting as the anchor) holds the anchor
value constant over positions `j-1 .. n-1` and leaves lower positions alone. -/
theorem runSteps_tailFill {n : Nat} {st : CleanState} {j : Nat}
    (hlen : st.data.length = n) (hn : 2 ≤ n) (hj1 : 1 ≤ j) (hjn : j ≤ n - 1)
    (hb : st.baddata = false)
    (hsent : ∀ i, j ≤ i → i < n → isBad (st.data.getD i 0) = true) :
    (∀ i, j - 1 ≤ i → i < n →
      (runSteps n st j (n - j)).data.getD i 0 = st.data.getD (j - 1) 0) ∧
    (∀ i, i < j - 1 → (runSteps n st j (n - j)).data.getD i 0 = st.data.getD i 0) ∧
    (runSteps n st j (n - j)).data.length = n := by
  have hple1 : j - 1 ≤ j := by omega
  have hjlen : j < st.data.length := by omega
  rcases Nat.eq_or_lt_of_le hjn with hjl | hjl
  · -- the run is the single final sample: the run-start iteration also fills
    have hk : n - j = 1 := by omega
    have hstep1 : runSteps n st j (n - j) = step n st j := by
      rw [hk]
      rfl
    rw [hstep1, step_bad_nobad_last (hsent j le_rfl (by omega)) hb hjl]
    have hdata :
        (fill { st with prevlocation := j - 1, prevdata := st.data.getD (j - 1) 0, baddata := true } j (st.data.getD (j - 1) 0)).data
        = setSlice st.data (j - 1) (linspace (st.data.getD (j - 1) 0) (st.data.getD (j - 1) 0) (j - (j - 1) + 1)) := rfl
    refine ⟨?_, ?_, ?_⟩
    · intro i hi1 hi2
      rw [hdata, fillSlice_getD_const hple1 hjlen (by omega) (by omega)]
    · intro i hi
      rw [hdata, fillSlice_getD_of_lt hple1 hjlen hi]
    · rw [hdata, fillSlice_length hple1 hjlen]
      exact hlen
  · -- run start at `j`, nothing through `n-2`, trailing fill at `n-1`
    have hx2 : isBad (st.data.getD j 0) = true := hsent j le_rfl (by omega)
    have hchain : runSteps n st j (n - j)
        = step n ({ st with prevlocation := j - 1, prevdata := st.data.getD (j - 1) 0, baddata := true }) (n - 1) := by
      rw [show n - j = (1 + (n - 2 - j)) + 1 by omega]
      rw [runSteps_append]
      rw [runSteps_append]
      have h1 : runSteps n st j 1 = step n st j := rfl
      rw [h1, step_bad_nobad_mid hx2 hb (by omega)]
      have hnoop : runSteps n ({ st with prevlocation := j - 1, prevdata := st.data.getD (j - 1) 0, baddata := true }) (j + 1) (n - 2 - j) = { st with prevlocation := j - 1, prevdata := st.data.getD (j - 1) 0, baddata := true } := by
        apply runSteps_noop
        · rfl
        · intro jj hjj1 hjj2
          show isBad (st.data.getD jj 0) = true
          exact hsent jj (by omega) (by omega)
        · omega
      rw [hnoop]
      rw [show j + (1 + (n - 2 - j)) = n - 1 by omega]
      rfl
    have hxlast : isBad
        (({ st with prevlocation := j - 1, prevdata := st.data.getD (j - 1) 0, baddata := true } : CleanState).data.getD (n - 1) 0) = true := by
      show isBad (st.data.getD (n - 1) 0) = true
      exact hsent (n - 1) (by omega) (by omega)
    rw [hchain, step_bad_bad_last hxlast rfl rfl]
    have hdata :
        (fill { st with prevlocation := j - 1, prevdata := st.data.getD (j - 1) 0, baddata := true } (n - 1) (({ st with prevlocation := j - 1, prevdata := st.data.getD (j - 1) 0, baddata := true } : CleanState).prevdata)).data
        = setSlice st.data (j - 1) (linspace (st.data.getD (j - 1) 0) (st.data.getD (j - 1) 0) ((n - 1) - (j - 1) + 1)) := rfl
    have hple2 : j - 1 ≤ n - 1 := by omega
    have hlen2 : n - 1 < st.data.length := by omega
    refine ⟨?_, ?_, ?_⟩
    · intro i hi1 hi2
      rw [hdata, fillSlice_getD_const hple2 hlen2 (by omega) (by omega)]
    · intro i hi
      rw [hdata, fillSlice_getD_of_lt hple2 hlen2 hi]
    · rw [hdata, fillSlice_length hple2 hlen2]
      exact hlen

/-- A maximal sentinel run strictly between positions `i0` and `i1` (where
`i1` holds a valid sample, and `i0` either holds a valid sample or is the
head of the array, which the scan uses as anchor unconditionally) is replaced
by the `np.linspace` interpolation between the two anchor values. -/
theorem cleanList_fillSpan (data : List ℚ) {i0 i1 : Nat}
    (h01 : i0 + 1 < i1) (h1n : i1 < data.length)
    (ha0 : i0 = 0 ∨ isBad (data.getD i0 0) = false)
    (ha1 : isBad (data.getD i1 0) = false)
    (hrun : ∀ j, i0 < j → j < i1 → isBad (data.getD j 0) = true) :
    ∀ k, k ≤ i1 - i0 →
      (cleanList data).getD (i0 + k) 0
        = data.getD i0 0
          + (k : ℚ) * (data.getD i1 0 - data.getD i0 0) / ((i1 - i0 : Nat) : ℚ) := by
  have hn : 2 ≤ data.length := by omega
  have hInv1 : Inv data (1 + i0)
      (runSteps data.length ⟨data, data.getD 0 0, 0, false⟩ 1 i0) :=
    inv_upto data hn (by omega)
  set st1 := runSteps data.length ⟨data, data.getD 0 0, 0, false⟩ 1 i0 with hst1def
  have hb1 : st1.baddata = false := inv_baddata_false data hInv1 ha0
  have hlen1 : st1.data.length = data.length := hInv1.lenEq
  have hdat1 : ∀ i, i0 ≤ i → st1.data.getD i 0 = data.getD i 0 := by
    intro i hi
    rcases Nat.eq_or_lt_of_le hi with hEq | hlt
    · rw [← hEq]
      rcases ha0 with h0 | hval
      · rw [h0]
        exact hInv1.headEq
      · exact hInv1.goodEq i0 hval
    · exact hInv1.suffixEq i (by omega)
  have hx2 : isBad (st1.data.getD (i0 + 1) 0) = true := by
    rw [hdat1 (i0 + 1) (by omega)]
    exact hrun (i0 + 1) (by omega) (by omega)
  have hst2 : step data.length st1 (i0 + 1)
      = { st1 with prevlocation := i0, prevdata := st1.data.getD i0 0, baddata := true } := by
    rw [step_bad_nobad_mid hx2 hb1 (by omega)]
    rw [show i0 + 1 - 1 = i0 by omega]
  have hnoop : runSteps data.length ({ st1 with prevlocation := i0, prevdata := st1.data.getD i0 0, baddata := true }) (i0 + 2) (i1 - (i0 + 2)) = { st1 with prevlocation := i0, prevdata := st1.data.getD i0 0, baddata := true } := by
    apply runSteps_noop
    · rfl
    · intro jj hj1 hj2
      show isBad (st1.data.getD jj 0) = true
      rw [hdat1 jj (by omega)]
      exact hrun jj (by omega) (by omega)
    · omega
  have hx4 : isBad (({ st1 with prevlocation := i0, prevdata := st1.data.getD i0 0, baddata := true } : CleanState).data.getD i1 0) = false := by
    show isBad (st1.data.getD i1 0) = false
    rw [hdat1 i1 (by omega)]
    exact ha1
  have hst4 : step data.length ({ st1 with prevlocation := i0, prevdata := st1.data.getD i0 0, baddata := true }) i1
      = fill ({ st1 with prevlocation := i0, prevdata := st1.data.getD i0 0, baddata := true }) i1 (st1.data.getD i1 0) :=
    step_valid_bad hx4 rfl
  have hchain : cleanLoop data
      = runSteps data.length (fill ({ st1 with prevlocation := i0, prevdata := st1.data.getD i0 0, baddata := true }) i1 (st1.data.getD i1 0)) (i1 + 1) (data.length - 1 - i1) := by
    show runSteps data.length ⟨data, data.getD 0 0, 0, false⟩ 1 (data.length - 1) = _
    conv_lhs => rw [show data.length - 1 = i0 + (((i1 - (i0 + 2)) + (1 + (data.length - 1 - i1))) + 1) by omega]
    rw [runSteps_append]
    rw [← hst1def]
    rw [show (1 : Nat) + i0 = i0 + 1 by omega]
    rw [runSteps_succ, hst2]
    rw [runSteps_append]
    rw [hnoop]
    rw [show i0 + 1 + 1 = i0 + 2 by omega] at hnoop ⊢
    rw [show i0 + 2 + (i1 - (i0 + 2)) = i1 by omega]
    rw [show (1 : Nat) + (data.length - 1 - i1) = (data.length - 1 - i1) + 1 by omega]
    rw [runSteps_succ, hst4]
  have hdata4 : (fill ({ st1 with prevlocation := i0, prevdata := st1.data.getD i0 0, baddata := true }) i1 (st1.data.getD i1 0)).data
      = setSlice st1.data i0 (linspace (st1.data.getD i0 0) (st1.data.getD i1 0) (i1 - i0 + 1)) := rfl
  have hfill_len : (fill ({ st1 with prevlocation := i0, prevdata := st1.data.getD i0 0, baddata := true }) i1 (st1.data.getD i1 0)).data.length = data.length := by
    rw [hdata4, fillSlice_length (by omega) (by omega)]
    exact hlen1
  have hframe := runSteps_frame (n := data.length) hfill_len fill_baddata
    (show 1 ≤ i1 + 1 by omega)
    (show (i1 + 1) + (data.length - 1 - i1) ≤ data.length by omega)
  intro k hk
  show (cleanLoop data).data.getD (i0 + k) 0 = _
  rw [hchain]
  rw [hframe (i0 + k) (by omega)]
  rw [hdata4]
  rw [fillSlice_getD_mem (by omega) (by omega) (by omega) (by omega)]
  rw [show i0 + k - i0 = k by omega]
  rw [hdat1 i0 le_rfl, hdat1 i1 (by omega)]

/-- A trailing maximal sentinel run (positions `j .. n-1` all sentinels, with
a valid anchor at `j-1`) is filled by holding the anchor value constant. -/
theorem clean_trailing_hold (data : List ℚ) {j : Nat}
    (hj1 : 1 ≤ j) (hjn : j < data.length)
    (hanchor : isBad (data.getD (j - 1) 0) = false)
    (hrun : ∀ i, j ≤ i → i < data.length → isBad (data.getD i 0) = true) :
    ∀ i, j - 1 ≤ i → i < data.length →
      (cleanList data).getD i 0 = data.getD (j - 1) 0 := by
  have hn : 2 ≤ data.length := by omega
  have hInv1 : Inv data (1 + (j - 1))
      (runSteps data.length ⟨data, data.getD 0 0, 0, false⟩ 1 (j - 1)) :=
    inv_upto data hn (by omega)
  set st1 := runSteps data.length ⟨data, data.getD 0 0, 0, false⟩ 1 (j - 1) with hst1def
  have hb1 : st1.baddata = false := inv_baddata_false data hInv1 (Or.inr hanchor)
  have hlen1 : st1.data.length = data.length := hInv1.lenEq
  have hdat1 : ∀ i, j - 1 ≤ i → st1.data.getD i 0 = data.getD i 0 := by
    intro i hi
    rcases Nat.eq_or_lt_of_le hi with hEq | hlt
    · rw [← hEq]
      exact hInv1.goodEq (j - 1) hanchor
    · exact hInv1.suffixEq i (by omega)
  have htf := runSteps_tailFill hlen1 hn hj1
    (by omega) hb1
    (fun i hi1 hi2 => by rw [hdat1 i (by omega)]; exact hrun i hi1 hi2)
  have hchain : cleanLoop data = runSteps data.length st1 j (data.length - j) := by
    show runSteps data.length ⟨data, data.getD 0 0, 0, false⟩ 1 (data.length - 1) = _
    conv_lhs => rw [show data.length - 1 = (j - 1) + (data.length - j) by omega]
    rw [runSteps_append, ← hst1def]
    rw [show 1 + (j - 1) = j by omega]
  intro i hi1 hi2
  show (cleanLoop data).data.getD i 0 = _
  rw [hchain, htf.1 i hi1 hi2, hdat1 (j - 1) le_rfl]

/-- On an input consisting entirely of sentinels, the run anchored at the
(sentinel) head is filled by holding `data[0]` constant, so `clean` returns
the constant sequence at the head value — in particular, a uniform sentinel
input comes back untouched, and no error of any kind is raised. -/
theorem clean_all_bad (data : List ℚ) (hn : 2 ≤ data.length)
    (hall : ∀ i, i < data.length → isBad (data.getD i 0) = true) :
    clean data = CleanResult.ok (List.replicate data.length (data.getD 0 0)) := by
  have htf := @runSteps_tailFill data.length ⟨data, data.getD 0 0, 0, false⟩ 1
    rfl hn le_rfl (by omega) rfl (fun i hi1 hi2 => hall i hi2)
  have hlist : cleanList data = List.replicate data.length (data.getD 0 0) := by
    apply List.ext_getElem
    · rw [List.length_replicate]
      exact htf.2.2
    · intro idx h1 h2
      have hlencl : (cleanList data).length = data.length := htf.2.2
      have hidx : idx < data.length := by omega
      have hval : (cleanList data).getD idx 0 = data.getD 0 0 :=
        htf.1 idx (by omega) hidx
      rw [List.getD_eq_getElem _ _ h1] at hval
      rw [hval, List.getElem_replicate]
  simp only [clean]
  rw [if_pos hn, hlist]

end Omni2swmf

/-! ## The claims -/

namespace Omni2swmf

/-- Concrete evaluation: cleaning `[9999.99, 9999.99, 5, 5]` interpolates the
leading run from the sentinel kept at index 0. -/
theorem cleanList_lead_example :
    cleanList [9999.99, 9999.99, 5, 5] = [9999.99, 5002.495, 5, 5] := by
  show (step 4 (step 4 (step 4 ⟨[9999.99, 9999.99, 5, 5], (9999.99 : ℚ), 0, false⟩ 1) 2) 3).data
      = [9999.99, 5002.495, 5, 5]
  norm_num [step, fill, setSlice, linspace, isBad,
    show List.range 2 = [0, 1] from rfl, show List.range 3 = [0, 1, 2] from rfl,
    show List.range 4 = [0, 1, 2, 3] from rfl]

/-- C1, counterexample: `clean` does NOT back-fill a leading bad run with the
first valid value — on `[SENTINEL, SENTINEL, 5, 5]` it does not return
`[5, 5, 5, 5]`; it returns `[9999.99, 5002.495, 5, 5]`, interpolated from the
sentinel kept at index 0. -/
theorem clean_leading_gap_not_backfilled :
    clean [9999.99, 9999.99, 5, 5] ≠ CleanResult.ok [5, 5, 5, 5] ∧
    clean [9999.99, 9999.99, 5, 5] = CleanResult.ok [9999.99, 5002.495, 5, 5] := by
  have hcl : clean [9999.99, 9999.99, 5, 5] = CleanResult.ok [9999.99, 5002.495, 5, 5] := by
    simp only [clean]
    rw [if_pos (by decide : 2 ≤ ([9999.99, 9999.99, 5, 5] : List ℚ).length),
      cleanList_lead_example]
  refine ⟨?_, hcl⟩
  rw [hcl]
  simp only [ne_eq, CleanResult.ok.injEq, List.cons.injEq]
  norm_num

/-- C1 (amended): for an input starting with a bad run of length `j ≥ 2`
whose first valid sample sits at index `j`, `clean` keeps the sentinel at
index 0 and linearly interpolates positions `0 .. j` between that sentinel
and the first valid value (no back-fill happens). -/
theorem clean_leading_gap_interpolates (data : List ℚ) {j : Nat}
    (hj2 : 2 ≤ j) (hjn : j < data.length)
    (hlead : ∀ i, i < j → isBad (data.getD i 0) = true)
    (hvalid : isBad (data.getD j 0) = false) :
    ∀ k, k ≤ j → (cleanList data).getD k 0
      = data.getD 0 0 + (k : ℚ) * (data.getD j 0 - data.getD 0 0) / ((j : Nat) : ℚ) := by
  have h := @cleanList_fillSpan data 0 j (by omega) hjn (Or.inl rfl)
    hvalid (fun jj h1 h2 => hlead jj h2)
  intro k hk
  have h2 := h k (by omega)
  simpa using h2

/-- Witness for C1 (amended) at `[9999.99, 9999.99, 5, 5]`, `j = 2`, `k = 1`:
the gap interior receives `(9999.99 + 5)/2`, anchored at the head sentinel. -/
theorem clean_leading_gap_interpolates_witness :
    2 ≤ 2 ∧
    (cleanList [9999.99, 9999.99, 5, 5]).getD 1 0
      = ([9999.99, 9999.99, 5, 5] : List ℚ).getD 0 0
        + (1 : ℚ) * (([9999.99, 9999.99, 5, 5] : List ℚ).getD 2 0
            - ([9999.99, 9999.99, 5, 5] : List ℚ).getD 0 0) / ((2 : Nat) : ℚ) :=
  ⟨le_rfl, clean_leading_gap_interpolates [9999.99, 9999.99, 5, 5] le_rfl (by decide)
    (fun i hi => by interval_cases i <;> norm_num [isBad]) (by norm_num [isBad]) 1
    (by omega)⟩

/-- C2, counterexample: on an all-sentinel input `clean` silently returns the
untouched sentinel values; no unrecoverable-gap error is signalled and no
index fault occurs. -/
theorem clean_all_sentinel_passthrough :
    clean [9999.99, 9999.99, 9999.99]
      = CleanResult.ok [9999.99, 9999.99, 9999.99] := by
  have hev : cleanList [9999.99, 9999.99, 9999.99] = [9999.99, 9999.99, 9999.99] := by
    show (step 3 (step 3 ⟨[9999.99, 9999.99, 9999.99], (9999.99 : ℚ), 0, false⟩ 1) 2).data
        = [9999.99, 9999.99, 9999.99]
    norm_num [step, fill, setSlice, linspace, isBad,
      show List.range 2 = [0, 1] from rfl, show List.range 3 = [0, 1, 2] from rfl]
  simp only [clean]
  rw [if_pos (by decide : 2 ≤ ([9999.99, 9999.99, 9999.99] : List ℚ).length), hev]

/-- C2 (amended): for every input consisting entirely of sentinel-bad samples
(length ≥ 2), `clean` raises no error and reports nothing: it returns the
array with every position overwritten by `data[0]` — for a uniform sentinel
input, the untouched input itself. -/
theorem clean_all_sentinel_result (data : List ℚ) (hn : 2 ≤ data.length)
    (hall : ∀ i, i < data.length → isBad (data.getD i 0) = true) :
    clean data = CleanResult.ok (List.replicate data.length (data.getD 0 0)) :=
  clean_all_bad data hn hall

/-- Witness for C2 (amended) at the mixed-sentinel input `[99999.9, 9999.99]`:
the trailing sentinel is overwritten with the leading one. -/
theorem clean_all_sentinel_result_witness :
    (∀ i, i < 2 → isBad (([99999.9, 9999.99] : List ℚ).getD i 0) = true) ∧
    clean [99999.9, 9999.99]
      = CleanResult.ok (List.replicate ([99999.9, 9999.99] : List ℚ).length
          (([99999.9, 9999.99] : List ℚ).getD 0 0)) :=
  ⟨fun i hi => by interval_cases i <;> norm_num [isBad],
    clean_all_sentinel_result [99999.9, 9999.99] (by decide)
      (fun i hi => by
        have hi2 : i < 2 := hi
        interval_cases i <;> norm_num [isBad])⟩

/-- Concrete evaluation: cleaning `[9999.99, 9999.99, 7, 7]`. -/
theorem cleanList_survivor_example :
    cleanList [9999.99, 9999.99, 7, 7] = [9999.99, 5003.495, 7, 7] := by
  show (step 4 (step 4 (step 4 ⟨[9999.99, 9999.99, 7, 7], (9999.99 : ℚ), 0, false⟩ 1) 2) 3).data
      = [9999.99, 5003.495, 7, 7]
  norm_num [step, fill, setSlice, linspace, isBad,
    show List.range 2 = [0, 1] from rfl, show List.range 3 = [0, 1, 2] from rfl,
    show List.range 4 = [0, 1, 2, 3] from rfl]

/-- C3, counterexample: sentinels can survive `clean` even when valid samples
exist: on `[9999.99, 9999.99, 7, 7]` the output still contains the sentinel
`9999.99` (at index 0). -/
theorem clean_sentinel_survives :
    clean [9999.99, 9999.99, 7, 7] = CleanResult.ok [9999.99, 5003.495, 7, 7] ∧
    (9999.99 : ℚ) ∈ ([9999.99, 5003.495, 7, 7] : List ℚ) ∧
    isBad 9999.99 = true := by
  refine ⟨?_, by norm_num, by norm_num [isBad]⟩
  simp only [clean]
  rw [if_pos (by decide : 2 ≤ ([9999.99, 9999.99, 7, 7] : List ℚ).length),
    cleanList_survivor_example]

/-- C3 (amended): if the first sample is valid and every valid sample has
absolute value below 999.99 (the smallest sentinel magnitude), then no value
of the output of `clean` equals any sentinel. -/
theorem clean_no_sentinel (data : List ℚ) (hlen : 2 ≤ data.length)
    (hsmall : smallInput data) : ∀ x ∈ cleanList data, isBad x = false := by
  intro x hx
  have hInv := inv_final data hlen
  have hbf : (cleanLoop data).baddata = false := hInv.finBad rfl
  obtain ⟨idx, hidx, hgx⟩ := List.mem_iff_getElem.1 hx
  have hlencl : (cleanList data).length = data.length := hInv.lenEq
  have hidx' : idx < data.length := by omega
  have hv : |(cleanList data).getD idx 0| < 999.99 :=
    (hInv.smallInv hsmall).1 hbf idx hidx'
  rw [List.getD_eq_getElem _ _ hidx, hgx] at hv
  exact isBad_eq_false_of_abs_lt hv

/-- Witness for C3 (amended) at `[1, 9999.99, 2]` (output `[1, 1.5, 2]`). -/
theorem clean_no_sentinel_witness :
    smallInput [1, 9999.99, 2] ∧ ∀ x ∈ cleanList [1, 9999.99, 2], isBad x = false := by
  have hs : smallInput ([1, 9999.99, 2] : List ℚ) := by
    refine ⟨by norm_num [isBad], ?_⟩
    intro i hi h
    have hi2 : i < 3 := hi
    interval_cases i <;> revert h <;> norm_num [isBad]
  exact ⟨hs, clean_no_sentinel [1, 9999.99, 2] (by decide) hs⟩

/-- C4: an interior maximal sentinel run flanked by valid anchors at `i0` and
`i1` is replaced by exact linear interpolation: position `i0 + k` receives
`v0 + k*(v1 - v0)/(i1 - i0)` for every `k ≤ i1 - i0`. -/
theorem clean_interior_gap (data : List ℚ) {i0 i1 : Nat}
    (h01 : i0 + 1 < i1) (h1n : i1 < data.length)
    (ha0 : isBad (data.getD i0 0) = false) (ha1 : isBad (data.getD i1 0) = false)
    (hrun : ∀ j, i0 < j → j < i1 → isBad (data.getD j 0) = true) :
    ∀ k, k ≤ i1 - i0 →
      (cleanList data).getD (i0 + k) 0
        = data.getD i0 0
          + (k : ℚ) * (data.getD i1 0 - data.getD i0 0) / ((i1 - i0 : Nat) : ℚ) :=
  cleanList_fillSpan data h01 h1n (Or.inr ha0) ha1 hrun

/-- Witness for C4 at `[1, 9999.99, 9999.99, 4]` (`i0 = 0`, `i1 = 3`,
`k = 2`), together with the whole-list check `clean([1,S,S,4]) = [1,2,3,4]`. -/
theorem clean_interior_gap_witness :
    0 + 1 < 3 ∧
    (cleanList [1, 9999.99, 9999.99, 4]).getD (0 + 2) 0
      = ([1, 9999.99, 9999.99, 4] : List ℚ).getD 0 0
        + (2 : ℚ) * (([1, 9999.99, 9999.99, 4] : List ℚ).getD 3 0
            - ([1, 9999.99, 9999.99, 4] : List ℚ).getD 0 0) / ((3 - 0 : Nat) : ℚ) ∧
    cleanList [1, 9999.99, 9999.99, 4] = [1, 2, 3, 4] := by
  refine ⟨by omega,
    clean_interior_gap [1, 9999.99, 9999.99, 4] (by omega) (by decide)
      (by norm_num [isBad]) (by norm_num [isBad])
      (fun j h1 h2 => by interval_cases j <;> norm_num [isBad]) 2 (by omega), ?_⟩
  show (step 4 (step 4 (step 4 ⟨[1, 9999.99, 9999.99, 4], (1 : ℚ), 0, false⟩ 1) 2) 3).data
      = [1, 2, 3, 4]
  norm_num [step, fill, setSlice, linspace, isBad,
    show List.range 2 = [0, 1] from rfl, show List.range 3 = [0, 1, 2] from rfl,
    show List.range 4 = [0, 1, 2, 3] from rfl]

/-- C5: an input ending in a sentinel run that never recovers has the run
(and its anchor position) filled with the last known-good value, held
constant. -/
theorem clean_trailing_gap_hold (data : List ℚ) {j : Nat}
    (hj1 : 1 ≤ j) (hjn : j < data.length)
    (hanchor : isBad (data.getD (j - 1) 0) = false)
    (hrun : ∀ i, j ≤ i → i < data.length → isBad (data.getD i 0) = true) :
    ∀ i, j - 1 ≤ i → i < data.length →
      (cleanList data).getD i 0 = data.getD (j - 1) 0 :=
  clean_trailing_hold data hj1 hjn hanchor hrun

/-- Witness for C5 at `[2, 2, 9999.99, 9999.99]` (`j = 2`): position 3 of the
output holds the anchor value `2`, and the whole output is `[2, 2, 2, 2]`. -/
theorem clean_trailing_gap_hold_witness :
    1 ≤ 2 ∧
    (cleanList [2, 2, 9999.99, 9999.99]).getD 3 0
      = ([2, 2, 9999.99, 9999.99] : List ℚ).getD (2 - 1) 0 ∧
    cleanList [2, 2, 9999.99, 9999.99] = [2, 2, 2, 2] := by
  refine ⟨by omega,
    clean_trailing_gap_hold [2, 2, 9999.99, 9999.99] (by omega) (by decide)
      (by norm_num [isBad])
      (fun i h1 h2 => by
        have h2' : i < 4 := h2
        interval_cases i <;> revert h1 <;> norm_num [isBad]) 3 (by omega) (by decide), ?_⟩
  show (step 4 (step 4 (step 4 ⟨[2, 2, 9999.99, 9999.99], (2 : ℚ), 0, false⟩ 1) 2) 3).data
      = [2, 2, 2, 2]
  norm_num [step, fill, setSlice, linspace, isBad,
    show List.range 2 = [0, 1] from rfl, show List.range 3 = [0, 1, 2] from rfl,
    show List.range 4 = [0, 1, 2, 3] from rfl]

/-- Concrete evaluation: cleaning `[6, 9999.99, 9999.99, 9]`. -/
theorem cleanList_mutation_example :
    cleanList [6, 9999.99, 9999.99, 9] = [6, 7, 8, 9] := by
  show (step 4 (step 4 (step 4 ⟨[6, 9999.99, 9999.99, 9], (6 : ℚ), 0, false⟩ 1) 2) 3).data
      = [6, 7, 8, 9]
  norm_num [step, fill, setSlice, linspace, isBad,
    show List.range 2 = [0, 1] from rfl, show List.range 3 = [0, 1, 2] from rfl,
    show List.range 4 = [0, 1, 2, 3] from rfl]

/-- C6, counterexample: `clean` does not leave the caller's buffer unmodified:
the slice assignments mutate the argument array in place (`cleanList` is the
buffer's contents after the call), and on `[6, 9999.99, 9999.99, 9]` the
buffer afterwards differs from the input. -/
theorem clean_buffer_mutated :
    cleanList [6, 9999.99, 9999.99, 9] ≠ [6, 9999.99, 9999.99, 9] := by
  rw [cleanList_mutation_example]
  simp only [ne_eq, List.cons.injEq]
  norm_num

/-- C6 (amended): `clean` operates in place — it mutates the caller's buffer
through slice assignment and returns that same buffer, so the return value
and the post-call buffer contents coincide (and generally differ from the
input: `[6, S, S, 9] ↦ [6, 7, 8, 9]`). -/
theorem clean_returns_mutated_buffer :
    cleanList [6, 9999.99, 9999.99, 9] = [6, 7, 8, 9] ∧
    clean [6, 9999.99, 9999.99, 9]
      = CleanResult.ok (cleanList [6, 9999.99, 9999.99, 9]) := by
  refine ⟨cleanList_mutation_example, ?_⟩
  simp only [clean]
  rw [if_pos (by decide : 2 ≤ ([6, 9999.99, 9999.99, 9] : List ℚ).length)]

/-- C7, counterexample: on inputs with fewer than 2 samples `clean` crashes
with an uncaught index error (from reading `data[0]`/`data[1]`); it reports
no distinct degenerate-series error. -/
theorem clean_short_input_crashes :
    clean [5] = CleanResult.indexError ∧ clean ([] : List ℚ) = CleanResult.indexError := by
  refine ⟨?_, ?_⟩ <;> · simp only [clean]; rw [if_neg (by decide)]

/-- C7 (amended): every input of length 0 or 1 makes `clean` fail with the
uncaught `IndexError` raised by its initial reads, rather than with a
dedicated degenerate-series error (and rather than returning the input). -/
theorem clean_short_input_indexError (data : List ℚ) (hshort : data.length < 2) :
    clean data = CleanResult.indexError := by
  simp only [clean]
  rw [if_neg (by omega)]

/-- Witness for C7 (amended) at `[42]`. -/
theorem clean_short_input_indexError_witness :
    ([42] : List ℚ).length < 2 ∧ clean [42] = CleanResult.indexError :=
  ⟨by decide, clean_short_input_indexError [42] (by decide)⟩

/-- C10: `clean` preserves every position whose original value is not a
sentinel — it writes only inside sentinel runs and at their anchor
endpoints, where the `np.linspace` endpoints restore the anchor values
exactly. -/
theorem clean_preserves_valid (data : List ℚ) (hlen : 2 ≤ data.length) (i : Nat)
    (hvalid : isBad (data.getD i 0) = false) :
    (cleanList data).getD i 0 = data.getD i 0 :=
  (inv_final data hlen).goodEq i hvalid

/-- Witness for C10 at `[8, 9999999, 10]`, position 0. -/
theorem clean_preserves_valid_witness :
    isBad (([8, 9999999, 10] : List ℚ).getD 0 0) = false ∧
    (cleanList [8, 9999999, 10]).getD 0 0 = ([8, 9999999, 10] : List ℚ).getD 0 0 :=
  ⟨by norm_num [isBad], clean_preserves_valid [8, 9999999, 10] (by decide) 0
    (by norm_num [isBad])⟩

end Omni2swmf

namespace SwmfpyIo

/-- C8: `coarse_filtering` marks as missing exactly the samples whose
absolute value reaches `mean(|column|) + coarseness * std(column)`, both
statistics taken once over the whole column, and keeps every sample strictly
below that threshold unchanged. -/
theorem coarse_filtering_marks_ge (coarseness : ℝ) (column : List ℝ) :
    coarse_filtering coarseness column
      = column.map (fun x =>
          if colMean (column.map (fun y => |y|)) + coarseness * colStd column ≤ |x|
          then none else some x) := by
  unfold coarse_filtering
  congr 1
  funext x
  rcases lt_or_le |x| (colMean (column.map (fun y => |y|)) + coarseness * colStd column)
    with h | h
  · rw [if_pos h, if_neg (not_le.2 h)]
  · rw [if_neg (not_lt.2 h), if_pos h]

/-- C9, counterexample: the code's per-field test disagrees with the claimed
`|V| < 2000` bound on the `Vy` component at 1500 km/s (the code's bound for
`Vy`/`Vz` is 1000). -/
theorem read_omni_csv_vy_threshold_differs :
    read_omni_csv_keep OmniField.Vy 1500
      ≠ read_omni_csv_keep_claimed OmniField.Vy 1500 := by
  simp only [read_omni_csv_keep, read_omni_csv_keep_claimed]
  rw [decide_eq_false (by norm_num), decide_eq_true (by norm_num)]
  simp

/-- C9 (amended): the spacecraft-CSV classification keeps a sample iff it
passes the strict per-field test `|B| < 80`, `density < 500`, `|Vx| < 2000`,
`|Vy| < 1000`, `|Vz| < 1000`, `T < 1e7`; samples at or above a bound are
dropped. -/
theorem read_omni_csv_keep_eq_amended :
    ∀ f x, read_omni_csv_keep f x = read_omni_csv_keep_amended f x := by
  intro f x
  cases f <;> rfl

end SwmfpyIo
